import Mathlib

/-!
Verification of the dcue release-to-cue-sheet mapper (src/main.cpp).

Strings are embedded as `List Char` (`Str`).  The functions below are
shallow embeddings of the C++ code in src/main.cpp; helpers that live in
headers not present in the repository snapshot (string_utility.h,
naming.h, support_types.h) are modelled from the specification and carry
a doc comment saying so.  Fallible C++ operations (an out-of-range
`std::string::erase`, reading element 0 of an empty array) are embedded
as `Option`-returning functions, `none` standing for the thrown
exception.
-/

namespace DCue

/-- Character-list strings, the representation used throughout this
development. -/
abbrev Str := List Char

/-- Modelled from the spec: `parse_unsigned_or_signed` restricted to
unsigned numerals (`string_to_numeric<unsigned>` from the missing
string_utility.h).  Converts a decimal numeral; fails (`none`) when the
text is not a valid numeral, including empty input. -/
def string_to_numeric_u (s : Str) : Option Nat :=
  if s ≠ [] ∧ s.all Char.isDigit then
    some (s.foldl (fun n c => n * 10 + (c.toNat - '0'.toNat)) 0)
  else none

/-- Modelled from the spec: `parse_unsigned_or_signed` for signed
numerals (`string_to_numeric<int>` from the missing string_utility.h). -/
def string_to_numeric_i (s : Str) : Option Int :=
  match s with
  | '-' :: rest => (string_to_numeric_u rest).map (fun n => -(n : Int))
  | _ => (string_to_numeric_u s).map (fun n => (n : Int))

/-- Take the longest prefix satisfying `p` (used instead of
`List.takeWhile` so that all equations are under our control). -/
def takeW (p : Char → Bool) : Str → Str
  | [] => []
  | c :: t => if p c then c :: takeW p t else []

/-- Drop the longest prefix satisfying `p`. -/
def dropW (p : Char → Bool) : Str → Str
  | [] => []
  | c :: t => if p c then dropW p t else c :: t

/-- Modelled from the spec: `trim` removes leading and trailing
whitespace (missing string_utility.h). -/
def trim (s : Str) : Str :=
  (dropW Char.isWhitespace ((dropW Char.isWhitespace s).reverse)).reverse

/-- Modelled from the spec: `explode` (split on every occurrence of a
one-character delimiter, empty segments preserved; missing
string_utility.h). -/
def explode (delim : Char) : Str → List Str
  | [] => [[]]
  | c :: t =>
    if c = delim then [] :: explode delim t
    else
      match explode delim t with
      | s :: r => (c :: s) :: r
      | [] => [[c]]

/-- Core of `artist_facets`, working on the reversed string: if the
string ends with a space, an opening parenthesis, one or more digits and
a closing parenthesis, that suffix (space included) is removed. -/
def stripRev : Str → Str
  | [] => []
  | c :: t =>
    if c = ')' then
      match dropW Char.isDigit t with
      | d1 :: d2 :: u =>
        if d1 = '(' ∧ d2 = ' ' ∧ takeW Char.isDigit t ≠ [] then u else c :: t
      | _ => c :: t
    else c :: t

/-- Modelled from the spec: `NamingFacets::artist_facets` (missing
naming.h) strips a trailing parenthesized numeric disambiguation suffix
such as `" (2)"` from an artist name, leaving other names unchanged. -/
def artist_facets (s : Str) : Str :=
  (stripRev s.reverse).reverse

/-- One artist-credit record of the raw document: canonical `name`,
optional as-named-variant `anv`, optional `join` token.  An absent key
is `none`; `get_if_exists` turns an absent key into the empty string. -/
structure ArtistInfo where
  name : Str
  anv : Option Str := none
  join : Option Str := none
deriving DecidableEq, Repr

/-- One tracklist record of the raw document. -/
structure TrackInfo where
  position : Str
  artists : Option (List ArtistInfo) := none
  title : Option Str := none
  duration : Option Str := none
deriving DecidableEq, Repr

/-- The raw release document (the JSON fields that `generate` reads). -/
structure Document where
  title : Option Str := none
  year : Option Int := none
  styles : Option (List Str) := none
  artists : Option (List ArtistInfo) := none
  tracklist : List TrackInfo := []
deriving DecidableEq, Repr

/-- Modelled from the spec: track length, minutes plus seconds, both
defaulting to 0 (the `tm` struct used by support_types.h). -/
structure Tm where
  tm_min : Int := 0
  tm_sec : Int := 0
deriving DecidableEq, Repr

/-- Modelled from the spec: a mapped track (missing support_types.h;
fields as used by main.cpp). -/
structure Track where
  position : Nat
  artist : Str := []
  title : Str := []
  length : Tm := {}
deriving DecidableEq, Repr

/-- Modelled from the spec: a mapped disc, an ordered list of tracks. -/
structure Disc where
  tracks : List Track := []
deriving DecidableEq, Repr

/-- Modelled from the spec: the mapped album (missing support_types.h;
fields as used by main.cpp). -/
structure Album where
  title : Str := []
  year : Str := []
  genre : Str := []
  album_artist : Str := []
  discs : List Disc := []
deriving DecidableEq, Repr

/-- The name chosen for one credit entry: the `anv` field when present
and non-empty (`get_if_exists` yields `""` for an absent key, and the
code tests `!anv.empty()`), else the canonical `name`. -/
def resolveName (ai : ArtistInfo) : Str :=
  match ai.anv with
  | some a => if a = [] then ai.name else a
  | none => ai.name

/-- The join-token text appended after a name: nothing when the token is
absent or empty, the bare token for a comma, a single space then the
token otherwise (main.cpp lines 71-77). -/
def joinPart (ai : ArtistInfo) : Str :=
  let j := ai.join.getD []
  if j = [] then []
  else if j = [','] then j
  else ' ' :: j

/-- One iteration of the `concatenate_artists` loop (main.cpp lines
63-79): append the resolved name, apply `artist_facets` to the whole
accumulator, append the join text, append one space. -/
def concatStep (acc : Str) (ai : ArtistInfo) : Str :=
  artist_facets (acc ++ resolveName ai) ++ joinPart ai ++ [' ']

/-- `concatenate_artists` (main.cpp lines 61-82).  The final
`artist.erase(artist.length() - 1, 1)` is unconditional: on an empty
accumulator the erase index wraps around and `std::string::erase` throws
`std::out_of_range`, embedded here as `none`; on a non-empty accumulator
it removes the final character. -/
def concatenate_artists (artists : List ArtistInfo) : Option Str :=
  let artist := artists.foldl concatStep []
  if artist = [] then none else some artist.dropLast

/-- A disc-boundary separator character, `'.'` or `'-'`
(`position.find_first_of(".-")`). -/
def isSepChar (c : Char) : Bool :=
  c == '.' || c == '-'

/-- The loop state of `generate`'s tracklist pass: the discs built so
far, the disc cursor `disc`, and the track-number cursor `track_num`
(main.cpp lines 108-111). -/
structure MapState where
  discs : List Disc
  disc : Nat
  track_num : Nat
deriving DecidableEq, Repr

/-- The disc-boundary check of `generate` (main.cpp lines 121-128): if
the position contains a `'.'` or `'-'` and the text before the first
such separator (`position.substr(0, position.find_first_of(".-"))`)
converts to an unsigned value strictly greater than the disc cursor,
append one new empty disc, advance the disc cursor, and reset the
track-number cursor to 1; otherwise leave the state unchanged.  A failed
numeric conversion is treated as zero (spec section 7). -/
def boundaryStep (position : Str) (st : MapState) : MapState :=
  if position.any isSepChar = true ∧
      st.disc < (string_to_numeric_u (takeW (fun c => !(isSepChar c)) position)).getD 0 then
    { discs := st.discs ++ [{}], disc := st.disc + 1, track_num := 1 }
  else st

/-- The duration handling of `generate` (main.cpp lines 138-147): when
the field is present, explode it on `':'`; exactly two components are
trimmed and converted (a failed conversion counting as zero, spec
section 7); otherwise the length keeps its zero default. -/
def parseDuration (duration : Option Str) : Tm :=
  match duration with
  | none => {}
  | some d =>
    match explode ':' d with
    | [m, s] =>
      { tm_min := (string_to_numeric_i (trim m)).getD 0,
        tm_sec := (string_to_numeric_i (trim s)).getD 0 }
    | _ => {}

/-- Building one `Track` (main.cpp lines 129-147): the position is the
track-number cursor, the artist is the concatenation of the entry's own
`artists` when the key is present (its failure propagates) and the album
artist otherwise, the title defaults to empty, the length comes from
`parseDuration`. -/
def buildTrack (album_artist : Str) (track_num : Nat) (ti : TrackInfo) : Option Track :=
  match ti.artists with
  | some ais =>
    (concatenate_artists ais).map fun art =>
      { position := track_num, artist := art,
        title := ti.title.getD [], length := parseDuration ti.duration }
  | none =>
    some { position := track_num, artist := album_artist,
           title := ti.title.getD [], length := parseDuration ti.duration }

/-- `a.discs[disc].tracks.push_back(t)` (main.cpp line 148): append a
track to the disc at the given index. -/
def appendTrackAt : List Disc → Nat → Track → List Disc
  | [], _, _ => []
  | d :: ds, 0, t => { tracks := d.tracks ++ [t] } :: ds
  | d :: ds, n + 1, t => d :: appendTrackAt ds n t

/-- One iteration of `generate`'s tracklist loop (main.cpp lines
112-149): an empty position is skipped; otherwise the boundary check
runs, the track is built (track-number cursor consumed and advanced) and
appended to the disc at the disc cursor. -/
def processEntry (album_artist : Str) (st : MapState) (ti : TrackInfo) : Option MapState :=
  if ti.position = [] then some st
  else
    let st1 := boundaryStep ti.position st
    match buildTrack album_artist st1.track_num ti with
    | none => none
    | some t =>
      some { discs := appendTrackAt st1.discs st1.disc t,
             disc := st1.disc, track_num := st1.track_num + 1 }

/-- The whole tracklist loop of `generate`. -/
def mapLoop (album_artist : Str) (st : MapState) : List TrackInfo → Option MapState
  | [] => some st
  | ti :: tis =>
    (processEntry album_artist st ti).bind fun st1 => mapLoop album_artist st1 tis

/-- The genre assignment (main.cpp lines 100-103): absent `styles`
leaves the empty default; a present `styles` is read at element 0
unconditionally, so a present-but-empty sequence is an error (reading
`styles[0]` of an empty array yields a null that cannot convert to a
string), embedded as `none`. -/
def genreOf : Option (List Str) → Option Str
  | none => some []
  | some [] => none
  | some (s :: _) => some s

/-- The album-artist assignment (main.cpp lines 104-106): the empty
default when the `artists` key is absent, else `concatenate_artists`
(whose failure on an empty sequence propagates). -/
def albumArtistOpt (doc : Document) : Option Str :=
  match doc.artists with
  | none => some []
  | some ais => concatenate_artists ais

/-- Decimal string of an integer (`std::to_string(int)` at main.cpp
line 98). -/
def intToStr (y : Int) : Str :=
  if y < 0 then '-' :: Nat.toDigits 10 y.natAbs else Nat.toDigits 10 y.natAbs

/-- The year assignment (main.cpp lines 97-99). -/
def yearStr : Option Int → Str
  | none => []
  | some y => intToStr y

/-- The release-to-album mapping of `generate` (main.cpp lines 95-155),
excluding the network fetch and the cue rendering: populate the album
fields with use-if-present defaults, run the tracklist loop from one
placeholder disc, and drop the first disc when more than one was
produced.  `none` stands for a thrown exception (empty artist sequence,
present-but-empty `styles`). -/
def generate (doc : Document) : Option Album :=
  (genreOf doc.styles).bind fun genre =>
  (albumArtistOpt doc).bind fun album_artist =>
  (mapLoop album_artist { discs := [{}], disc := 0, track_num := 1 } doc.tracklist).map fun st =>
    { title := doc.title.getD [],
      year := yearStr doc.year,
      genre := genre,
      album_artist := album_artist,
      discs := if st.discs.length > 1 then st.discs.tail else st.discs }

/-- Outcome of the command-line entry point: print usage and exit 0,
print the syntax error and exit 1, or invoke generation with an id, an
audio filename and the master flag. -/
inductive CliResult where
  | help : CliResult
  | err : CliResult
  | run : Str → Str → Bool → CliResult
deriving DecidableEq, Repr

/-- ASCII lowercasing of a whole argument (`std::transform` with
`::tolower`, main.cpp line 188). -/
def lowerStr (s : Str) : Str :=
  s.map Char.toLower

/-- `rel.substr(rel.find("=") + 1)`: everything after the first `'='`. -/
def afterFirstEq (rel : Str) : Str :=
  (dropW (fun c => !(c == '=')) rel).drop 1

/-- The first argument is one of the help flags accepted at main.cpp
line 179. -/
def isHelpArg (first : Str) : Bool :=
  first == "--help".toList || first == "-h".toList || first == "-H".toList

/-- The argument handling of `main` (main.cpp lines 170-206), over the
argument list `argv[1..]`: fewer than one argument is a syntax error;
the help flags print usage and exit 0; any other argument count than two
is a syntax error; otherwise the lowercased first argument selects plain
release, `r=`/`release=` release, or `m=`/`master=` master generation,
and an `'='`-containing argument with any other prefix is a syntax
error. -/
def dcueMain (args : List Str) : CliResult :=
  match args with
  | [] => .err
  | first :: rest =>
    if isHelpArg first then .help
    else
      match rest with
      | [fn] =>
        let rel := lowerStr first
        if rel.any (fun c => c == '=') = false then .run rel fn false
        else if rel.take 2 = "r=".toList ∨ rel.take 8 = "release=".toList then
          .run (afterFirstEq rel) fn false
        else if rel.take 2 = "m=".toList ∨ rel.take 7 = "master=".toList then
          .run (afterFirstEq rel) fn true
        else .err
      | _ => .err

/-- Process exit status of an outcome, where generation's own status
depends on the fetch and render collaborators (`none`). -/
def exitCode : CliResult → Option Nat
  | .help => some 0
  | .err => some 1
  | .run _ _ _ => none

/-- The tracklist of claim C2: position strings "1", "1", "2-1", "2-2". -/
def c2doc : Document :=
  { tracklist := [{ position := "1".toList }, { position := "1".toList },
                  { position := "2-1".toList }, { position := "2-2".toList }] }

/-- A one-track document used to instantiate the per-disc position
invariant. -/
def c7doc : Document :=
  { tracklist := [{ position := "1".toList }] }

/-- The list `[s, s+1, ..., s+n-1]` of `n` consecutive naturals. -/
def natSeq (s n : Nat) : List Nat :=
  match n with
  | 0 => []
  | n + 1 => s :: natSeq (s + 1) n

/-- A disc's track positions are exactly 1, 2, ..., length. -/
def seqPos (d : Disc) : Prop :=
  d.tracks.map Track.position = natSeq 1 d.tracks.length

/-- The invariant of the tracklist loop: the disc list is non-empty,
the disc cursor points at its last element, every disc's positions are
1-based and sequential, and the track-number cursor is one past the
last disc's track count. -/
def Inv (st : MapState) : Prop :=
  ∃ front lastd, st.discs = front ++ [lastd] ∧ st.disc = front.length ∧
    (∀ d ∈ st.discs, seqPos d) ∧ st.track_num = lastd.tracks.length + 1

/-- The text one credit entry contributes before the inter-entry
space: its facet-stripped resolved name followed by its join text. -/
def renderEntry (ai : ArtistInfo) : Str :=
  artist_facets (resolveName ai) ++ joinPart ai

/-- The raw accumulator text of the `concatenate_artists` loop: each
entry's rendering followed by one space. -/
def renderAll : List ArtistInfo → Str
  | [] => []
  | ai :: ais => renderEntry ai ++ ' ' :: renderAll ais

/-- Strings joined by single spaces. -/
def interSpace : List Str → Str
  | [] => []
  | [r] => r
  | r :: rs => r ++ ' ' :: interSpace rs

/-- `badParen`'s check on an already-reversed string: a closing
parenthesis, then one or more digits, then nothing but the opening
parenthesis. -/
def badRev : Str → Bool
  | c :: t =>
    decide (c = ')') && decide (takeW Char.isDigit t ≠ [])
      && decide (dropW Char.isDigit t = ['('])
  | [] => false

/-- A name that is nothing but a parenthesized number, such as "(2)":
appended after the separator space of a previous entry it forms the
exact disambiguation-suffix pattern, so the in-accumulator stripping
would delete it together with that separator. -/
def badParen (nm : Str) : Bool :=
  badRev nm.reverse

/-- The text is non-empty and its final character is not a space. -/
def lastNonSpace (l : Str) : Bool :=
  match l.reverse with
  | [] => false
  | c :: _ => !(c == ' ')

/-- Claim C1: the code is expected to return the empty string on an
empty artist-credit sequence, guarding the trailing-character removal.
The code does not guard it: the final erase runs unconditionally, its
index wraps around on the empty accumulator, and `std::string::erase`
throws (embedded as `none`), which also aborts any mapping whose
`artists` key holds an empty sequence.  This theorem evaluates the code
at the failing input. -/
theorem concatenate_artists_empty_fails :
    concatenate_artists [] = none ∧
      generate { artists := some [] } = none := by
  exact ⟨rfl, rfl⟩

/-- Claim C2 counterexample: on position strings "1", "1", "2-1", "2-2"
the mapper does NOT produce two discs of two tracks each with positions
1,2 / 1,2. -/
theorem generate_c2_tracklist_cex :
    (generate c2doc).map (fun a => a.discs.map fun d => d.tracks.map Track.position)
      ≠ some [[1, 2], [1, 2]] := by
  decide

/-- Claim C2 as amended: on position strings "1", "1", "2-1", "2-2" the
mapper produces exactly two Discs of exactly one Track each, both
carrying position 1: the boundary check fires at "2-1" (prefix 2 > disc
cursor 0) and again at "2-2" (prefix 2 > disc cursor 1), resetting the
track-number cursor each time, and the two entries with position "1"
are discarded together with the placeholder Disc. -/
theorem generate_c2_tracklist :
    (generate c2doc).map (fun a => a.discs.map fun d => d.tracks.map Track.position)
      = some [[1], [1]] := by
  decide

/-- Claim C9: an artist-credit entry whose `anv` key is present but
equal to the empty string is concatenated exactly as if the key were
absent — the canonical `name` is used, at any position of the credit
sequence. -/
theorem concatenate_artists_empty_anv (pre post : List ArtistInfo) (nm : Str)
    (j : Option Str) :
    concatenate_artists (pre ++ { name := nm, anv := some [], join := j } :: post)
      = concatenate_artists (pre ++ { name := nm, anv := none, join := j } :: post) := by
  unfold concatenate_artists
  rw [List.foldl_append, List.foldl_append, List.foldl_cons, List.foldl_cons]
  have hstep : ∀ acc : Str,
      concatStep acc { name := nm, anv := some [], join := j }
        = concatStep acc { name := nm, anv := none, join := j } := by
    intro acc
    simp [concatStep, resolveName, joinPart]
  rw [hstep]

/-- Claim C3: the boundary check of the tracklist loop appends exactly
one new empty Disc, advances the disc cursor by one and resets the
track-number cursor to 1 exactly when the position contains a '.' or
'-' separator and the text before the first such separator parses as an
unsigned integer strictly greater than the disc cursor; in every other
case it leaves the state unchanged.  (A failed parse is treated as
zero, which is never strictly greater than the cursor.) -/
theorem boundaryStep_spec (st : MapState) (position : Str) :
    (boundaryStep position st
        = { discs := st.discs ++ [{}], disc := st.disc + 1, track_num := 1 }
      ↔ position.any isSepChar = true ∧
          ∃ n, string_to_numeric_u (takeW (fun c => !(isSepChar c)) position) = some n
            ∧ st.disc < n)
    ∧ (¬ (position.any isSepChar = true ∧
          ∃ n, string_to_numeric_u (takeW (fun c => !(isSepChar c)) position) = some n
            ∧ st.disc < n)
        → boundaryStep position st = st) := by
  have hgetD : ∀ o : Option Nat,
      st.disc < o.getD 0 ↔ ∃ n, o = some n ∧ st.disc < n := by
    intro o
    cases o with
    | none => simp
    | some m => simp
  constructor
  · constructor
    · intro h
      by_cases hc : position.any isSepChar = true ∧
          st.disc < (string_to_numeric_u (takeW (fun c => !(isSepChar c)) position)).getD 0
      · exact ⟨hc.1, (hgetD _).mp hc.2⟩
      · exfalso
        have hst : boundaryStep position st = st := by
          unfold boundaryStep
          rw [if_neg hc]
        rw [hst] at h
        have hlen := congrArg (fun s => s.discs.length) h
        simp at hlen
    · rintro ⟨h1, n, h2, h3⟩
      have hlt : st.disc <
          (string_to_numeric_u (takeW (fun c => !(isSepChar c)) position)).getD 0 := by
        rw [h2]
        exact h3
      unfold boundaryStep
      rw [if_pos ⟨h1, hlt⟩]
  · intro hnc
    have hc : ¬ (position.any isSepChar = true ∧
        st.disc < (string_to_numeric_u (takeW (fun c => !(isSepChar c)) position)).getD 0) := by
      rintro ⟨h1, h2⟩
      exact hnc ⟨h1, (hgetD _).mp h2⟩
    unfold boundaryStep
    rw [if_neg hc]

/-- Claim C3 witness: at position "2-1" with disc cursor 0 the boundary
fires (prefix 2 > 0), appending one disc and resetting the cursors. -/
theorem boundaryStep_spec_witness :
    boundaryStep "2-1".toList { discs := [{}], disc := 0, track_num := 5 }
      = { discs := [{}, {}], disc := 1, track_num := 1 } :=
  (boundaryStep_spec { discs := [{}], disc := 0, track_num := 5 } "2-1".toList).1.mpr
    ⟨by decide, 2, by decide, by decide⟩

/-- Claim C6: a duration of "3:45" maps to minutes 3, seconds 45; an
absent duration, or one that does not explode on ':' into exactly two
components (such as "bogus"), leaves the length at its zero default;
and every built Track carries exactly the duration-derived length. -/
theorem track_length_spec :
    parseDuration (some "3:45".toList) = { tm_min := 3, tm_sec := 45 }
    ∧ parseDuration none = { tm_min := 0, tm_sec := 0 }
    ∧ parseDuration (some "bogus".toList) = { tm_min := 0, tm_sec := 0 }
    ∧ (∀ d : Str, (explode ':' d).length ≠ 2 →
        parseDuration (some d) = { tm_min := 0, tm_sec := 0 })
    ∧ (∀ (aa : Str) (n : Nat) (ti : TrackInfo) (t : Track),
        buildTrack aa n ti = some t → t.length = parseDuration ti.duration) := by
  refine ⟨by decide, rfl, by decide, ?_, ?_⟩
  · intro d h
    unfold parseDuration
    dsimp only
    rcases hE : explode ':' d with _ | ⟨m, tl⟩
    · rfl
    · rcases tl with _ | ⟨s, tl2⟩
      · rfl
      · rcases tl2 with _ | ⟨x, tl3⟩
        · rw [hE] at h
          exact absurd rfl h
        · rfl
  · intro aa n ti t h
    unfold buildTrack at h
    rcases hA : ti.artists with _ | ais <;> rw [hA] at h
    · cases h
      rfl
    · rcases Option.map_eq_some'.mp h with ⟨art, _, rfl⟩
      rfl

/-- Claim C6 witness: "1:2:3" explodes into three components and yields
the zero length, and a concrete built track carries the parsed "3:45". -/
theorem track_length_spec_witness :
    parseDuration (some "1:2:3".toList) = { tm_min := 0, tm_sec := 0 }
    ∧ ({ position := 4, artist := [], title := [],
         length := { tm_min := 3, tm_sec := 45 } } : Track).length
        = parseDuration (some "3:45".toList) :=
  ⟨track_length_spec.2.2.2.1 "1:2:3".toList (by decide),
   track_length_spec.2.2.2.2 [] 4
     { position := "1".toList, duration := some "3:45".toList }
     { position := 4, artist := [], title := [],
       length := { tm_min := 3, tm_sec := 45 } } (by decide)⟩

/-- Destructuring of a successful `generate` run into its genre,
album-artist and tracklist-loop components. -/
theorem generate_parts {doc : Document} {a : Album} (h : generate doc = some a) :
    ∃ g aa st, genreOf doc.styles = some g ∧ albumArtistOpt doc = some aa ∧
      mapLoop aa { discs := [{}], disc := 0, track_num := 1 } doc.tracklist = some st ∧
      a = { title := doc.title.getD [], year := yearStr doc.year, genre := g,
            album_artist := aa,
            discs := if st.discs.length > 1 then st.discs.tail else st.discs } := by
  unfold generate at h
  rcases hg : genreOf doc.styles with _ | g <;> rw [hg] at h
  · simp at h
  · simp only [Option.some_bind] at h
    rcases hA : albumArtistOpt doc with _ | aa <;> rw [hA] at h
    · simp at h
    · simp only [Option.some_bind] at h
      rcases hm : mapLoop aa { discs := [{}], disc := 0, track_num := 1 } doc.tracklist
          with _ | st <;> rw [hm] at h
      · simp at h
      · simp only [Option.map_some'] at h
        exact ⟨g, aa, st, rfl, rfl, hm, (Option.some_injective _ h).symm⟩

/-- Claim C10: when the `styles` key is absent the genre keeps its empty
default; when it is present, element 0 is read unconditionally — a
present non-empty sequence sets the genre to its first element, and a
present-but-empty sequence is an error (the mapping produces no album),
so the mapping is well-defined only when a present styles sequence is
non-empty. -/
theorem generate_styles_spec (doc : Document) :
    (doc.styles = some [] → generate doc = none)
    ∧ (∀ a, generate doc = some a →
        (doc.styles = none → a.genre = []) ∧
        (∀ s rest, doc.styles = some (s :: rest) → a.genre = s)) := by
  constructor
  · intro h
    unfold generate
    rw [h]
    rfl
  · intro a h
    obtain ⟨g, aa, st, hg, hA, hm, rfl⟩ := generate_parts h
    constructor
    · intro hs
      rw [hs] at hg
      cases hg
      rfl
    · intro s rest hs
      rw [hs] at hg
      cases hg
      rfl

/-- Claim C10 witness: a document with styles ["Hardcore", "Gabber"]
maps to genre "Hardcore"; one with absent styles keeps the empty genre;
one with present-but-empty styles fails. -/
theorem generate_styles_spec_witness :
    generate { styles := some [] } = none
    ∧ (({} : Document).styles = none →
        ({ discs := [{}] } : Album).genre = [])
    ∧ (generate { styles := some ["Hardcore".toList, "Gabber".toList] }
          = some { genre := "Hardcore".toList, discs := [{}] } →
        ({ genre := "Hardcore".toList, discs := [{}] } : Album).genre = "Hardcore".toList) :=
  ⟨(generate_styles_spec { styles := some [] }).1 rfl,
   fun _ => ((generate_styles_spec {}).2 { discs := [{}] } (by decide)).1 rfl,
   fun h => ((generate_styles_spec _).2 _ h).2 "Hardcore".toList ["Gabber".toList] rfl⟩

theorem natSeq_snoc (s n : Nat) : natSeq s (n + 1) = natSeq s n ++ [s + n] := by
  induction n generalizing s with
  | zero => rfl
  | succ k ih =>
    show s :: natSeq (s + 1) (k + 1) = (s :: natSeq (s + 1) k) ++ [s + (k + 1)]
    rw [ih (s + 1), List.cons_append]
    have harith : s + 1 + k = s + (k + 1) := by omega
    rw [harith]

theorem inv_init : Inv { discs := [{}], disc := 0, track_num := 1 } := by
  refine ⟨[], {}, rfl, rfl, ?_, rfl⟩
  intro d hd
  simp at hd
  subst hd
  exact rfl

theorem appendTrackAt_snoc (front : List Disc) (lastd : Disc) (t : Track) :
    appendTrackAt (front ++ [lastd]) front.length t
      = front ++ [{ tracks := lastd.tracks ++ [t] }] := by
  induction front with
  | nil => rfl
  | cons f fr ih =>
    show f :: appendTrackAt (fr ++ [lastd]) fr.length t
      = f :: (fr ++ [{ tracks := lastd.tracks ++ [t] }])
    rw [ih]

theorem boundaryStep_inv {st : MapState} (position : Str) (h : Inv st) :
    Inv (boundaryStep position st) := by
  unfold boundaryStep
  split
  · obtain ⟨front, lastd, hd, hc, hall, htn⟩ := h
    refine ⟨front ++ [lastd], {}, ?_, ?_, ?_, rfl⟩
    · dsimp only
      rw [hd]
    · dsimp only
      rw [hc]
      simp
    · intro d hd2
      dsimp only at hd2
      rcases List.mem_append.mp hd2 with h1 | h1
      · exact hall d h1
      · simp at h1
        subst h1
        exact rfl
  · exact h

theorem buildTrack_position {aa : Str} {n : Nat} {ti : TrackInfo} {t : Track}
    (h : buildTrack aa n ti = some t) : t.position = n := by
  unfold buildTrack at h
  rcases hA : ti.artists with _ | ais <;> rw [hA] at h
  · cases h
    rfl
  · rcases Option.map_eq_some'.mp h with ⟨art, _, rfl⟩
    rfl

theorem processEntry_inv {aa : Str} {st st' : MapState} {ti : TrackInfo}
    (h : Inv st) (he : processEntry aa st ti = some st') : Inv st' := by
  unfold processEntry at he
  split at he
  · cases he
    exact h
  · dsimp only at he
    have h1 : Inv (boundaryStep ti.position st) := boundaryStep_inv ti.position h
    rcases hB : buildTrack aa (boundaryStep ti.position st).track_num ti
        with _ | t <;> rw [hB] at he
    · simp at he
    · dsimp only at he
      obtain ⟨front, lastd, hd, hc, hall, htn⟩ := h1
      have hpos : t.position = (boundaryStep ti.position st).track_num :=
        buildTrack_position hB
      have hst' := Option.some_injective _ he
      subst hst'
      refine ⟨front, { tracks := lastd.tracks ++ [t] }, ?_, ?_, ?_, ?_⟩
      · dsimp only
        rw [hd, hc]
        exact appendTrackAt_snoc front lastd t
      · dsimp only
        exact hc
      · intro d hd2
        dsimp only at hd2
        rw [hd, hc, appendTrackAt_snoc front lastd t] at hd2
        rcases List.mem_append.mp hd2 with hm1 | hm1
        · exact hall d (by rw [hd]; exact List.mem_append_left _ hm1)
        · simp at hm1
          subst hm1
          have hlastmem : lastd ∈ (boundaryStep ti.position st).discs := by
            rw [hd]
            exact List.mem_append_right _ (by simp)
          have hseq := hall lastd hlastmem
          unfold seqPos at hseq ⊢
          dsimp only
          have hposval : t.position = lastd.tracks.length + 1 := by
            rw [hpos, htn]
          rw [List.map_append, hseq]
          simp only [List.map_cons, List.map_nil, List.length_append,
            List.length_cons, List.length_nil]
          rw [hposval]
          simp [natSeq_snoc, Nat.add_comm]
      · dsimp only
        rw [htn]
        simp

theorem mapLoop_inv {aa : Str} :
    ∀ (tis : List TrackInfo) (st st' : MapState),
      Inv st → mapLoop aa st tis = some st' → Inv st' := by
  intro tis
  induction tis with
  | nil =>
    intro st st' h he
    unfold mapLoop at he
    have hst' := Option.some_injective _ he
    subst hst'
    exact h
  | cons ti tis ih =>
    intro st st' h he
    unfold mapLoop at he
    rcases hp : processEntry aa st ti with _ | st1 <;> rw [hp] at he
    · simp at he
    · simp only [Option.some_bind] at he
      exact ih st1 st' (processEntry_inv h hp) he

/-- Claim C4: whenever mapping completes, the album holds at least one
disc; when the tracklist loop produced more than one disc, exactly the
first (placeholder) disc is removed, and when it produced exactly one,
that placeholder is kept unchanged as the only disc. -/
theorem generate_discs_spec (doc : Document) (a : Album)
    (h : generate doc = some a) :
    a.discs ≠ [] ∧
    ∃ st, mapLoop a.album_artist { discs := [{}], disc := 0, track_num := 1 } doc.tracklist
        = some st ∧
      st.discs ≠ [] ∧
      (st.discs.length > 1 → a.discs = st.discs.tail) ∧
      (¬ st.discs.length > 1 → a.discs = st.discs) := by
  obtain ⟨g, aa, st, hg, hA, hm, rfl⟩ := generate_parts h
  have hInv : Inv st := mapLoop_inv doc.tracklist _ st inv_init hm
  obtain ⟨front, lastd, hd, -⟩ := hInv
  have hne : st.discs ≠ [] := by
    rw [hd]
    simp
  constructor
  · dsimp only
    split
    case isTrue hlen =>
      intro habs
      have hlen2 := congrArg List.length habs
      rw [List.length_tail] at hlen2
      simp at hlen2
      omega
    case isFalse hlen => exact hne
  · refine ⟨st, hm, hne, ?_, ?_⟩
    · intro hlen
      dsimp only
      rw [if_pos hlen]
    · intro hlen
      dsimp only
      rw [if_neg hlen]

/-- Claim C4 witness: the empty document maps to an album whose only
disc is the untouched placeholder. -/
theorem generate_discs_spec_witness :
    ([{}] : List Disc) ≠ [] ∧
    ∃ st, mapLoop [] { discs := [{}], disc := 0, track_num := 1 } ([] : List TrackInfo)
        = some st ∧
      st.discs ≠ [] ∧
      (st.discs.length > 1 → ([{}] : List Disc) = st.discs.tail) ∧
      (¬ st.discs.length > 1 → ([{}] : List Disc) = st.discs) :=
  generate_discs_spec {}
    { title := [], year := [], genre := [], album_artist := [], discs := [{}] } rfl

/-- Claim C7: in every successfully mapped album, each disc's track
positions are exactly 1, 2, ..., n in processing order — 1-based,
unique and sequential within the disc, assigned from the track-number
cursor and independent of the source position strings. -/
theorem track_positions_sequential (doc : Document) (a : Album)
    (h : generate doc = some a) :
    ∀ d ∈ a.discs, d.tracks.map Track.position = natSeq 1 d.tracks.length := by
  obtain ⟨g, aa, st, hg, hA, hm, rfl⟩ := generate_parts h
  have hInv : Inv st := mapLoop_inv doc.tracklist _ st inv_init hm
  obtain ⟨front, lastd, hd, hc, hall, htn⟩ := hInv
  intro d hdm
  have hdm2 : d ∈ st.discs := by
    dsimp only at hdm
    by_cases hlen : st.discs.length > 1
    · rw [if_pos hlen] at hdm
      exact List.mem_of_mem_tail hdm
    · rw [if_neg hlen] at hdm
      exact hdm
  exact hall d hdm2

/-- Claim C7 witness: the one-track document yields one disc whose
positions are exactly [1]. -/
theorem track_positions_sequential_witness :
    ({ tracks := [{ position := 1 }] } : Disc).tracks.map Track.position
      = natSeq 1 ({ tracks := [{ position := 1 }] } : Disc).tracks.length :=
  track_positions_sequential c7doc
    { title := [], year := [], genre := [], album_artist := [],
      discs := [{ tracks := [{ position := 1 }] }] } rfl
    { tracks := [{ position := 1 }] } (by decide)

theorem dropW_nil_append {p : Char → Bool} {l : Str} (h : dropW p l = []) (x : Str) :
    dropW p (l ++ x) = dropW p x := by
  induction l with
  | nil => rfl
  | cons a t ih =>
    cases hp : p a with
    | true =>
      simp only [dropW, hp, if_true] at h
      rw [List.cons_append]
      simp only [dropW, hp, if_true]
      exact ih h
    | false =>
      simp [dropW, hp] at h

theorem takeW_nil_append {p : Char → Bool} {l : Str} (h : dropW p l = []) (x : Str) :
    takeW p (l ++ x) = l ++ takeW p x := by
  induction l with
  | nil => rfl
  | cons a t ih =>
    cases hp : p a with
    | true =>
      simp only [dropW, hp, if_true] at h
      rw [List.cons_append]
      simp only [takeW, hp, if_true, List.cons_append]
      rw [ih h]
    | false =>
      simp [dropW, hp] at h

theorem dropW_cons_append {p : Char → Bool} {l : Str} {d : Char} {rest : Str}
    (h : dropW p l = d :: rest) (x : Str) :
    dropW p (l ++ x) = d :: (rest ++ x) := by
  induction l with
  | nil => simp [dropW] at h
  | cons a t ih =>
    cases hp : p a with
    | true =>
      simp only [dropW, hp, if_true] at h
      rw [List.cons_append]
      simp only [dropW, hp, if_true]
      exact ih h
    | false =>
      simp only [dropW, hp] at h
      simp at h
      rw [List.cons_append]
      simp only [dropW, hp]
      simp
      exact ⟨h.1, by rw [h.2]⟩

theorem takeW_cons_append {p : Char → Bool} {l : Str} {d : Char} {rest : Str}
    (h : dropW p l = d :: rest) (x : Str) :
    takeW p (l ++ x) = takeW p l := by
  induction l with
  | nil => simp [dropW] at h
  | cons a t ih =>
    cases hp : p a with
    | true =>
      simp only [dropW, hp, if_true] at h
      rw [List.cons_append]
      simp only [takeW, hp, if_true]
      rw [ih h]
    | false =>
      rw [List.cons_append]
      simp [takeW, hp]

theorem stripRev_append {r x : Str} (hx : x = [] ∨ ∃ x', x = ' ' :: x')
    (hbad : badRev r = false) :
    stripRev (r ++ x) = stripRev r ++ x := by
  rcases r with _ | ⟨c, t⟩
  · rcases hx with rfl | ⟨x', rfl⟩
    · rfl
    · show stripRev (' ' :: x') = ' ' :: x'
      unfold stripRev
      dsimp only
      rw [if_neg (by decide)]
  · by_cases hc : c = ')'
    · subst hc
      rcases hT : dropW Char.isDigit t with _ | ⟨d1, rest⟩
      · -- t is all digits
        rcases hx with rfl | ⟨x', rfl⟩
        · simp
        · have hTX : dropW Char.isDigit (t ++ ' ' :: x') = ' ' :: x' := by
            rw [dropW_nil_append hT]
            simp [dropW]
          have hR : stripRev (')' :: t) = ')' :: t := by
            unfold stripRev
            dsimp only
            rw [if_pos rfl, hT]
          show stripRev (')' :: (t ++ ' ' :: x')) = stripRev (')' :: t) ++ (' ' :: x')
          rw [hR]
          unfold stripRev
          dsimp only
          rw [if_pos rfl, hTX]
          rcases x' with _ | ⟨d2, u⟩
          · simp
          · dsimp only
            rw [if_neg (by intro hcon; exact absurd hcon.1 (by decide))]
            simp
      · -- the first non-digit of t exists
        have hTX := dropW_cons_append hT x
        have hTk := takeW_cons_append hT x
        show stripRev (')' :: (t ++ x)) = stripRev (')' :: t) ++ x
        unfold stripRev
        dsimp only
        rw [if_pos rfl, if_pos rfl, hTX, hT, hTk]
        rcases rest with _ | ⟨d2, u⟩
        · rcases hx with rfl | ⟨x', rfl⟩
          · simp
          · simp only [List.nil_append]
            by_cases hd1 : d1 = '('
            · subst hd1
              have htk : takeW Char.isDigit t = [] := by
                simp [badRev, hT] at hbad
                exact hbad
              rw [if_neg (by intro hcon; exact hcon.2.2 htk)]
              simp
            · rw [if_neg (fun hcon => hd1 hcon.1)]
              simp
        · simp only [List.cons_append]
          by_cases hcond : d1 = '(' ∧ d2 = ' ' ∧ takeW Char.isDigit t ≠ []
          · rw [if_pos hcond, if_pos hcond]
          · rw [if_neg hcond, if_neg hcond]
            simp
    · show stripRev (c :: (t ++ x)) = stripRev (c :: t) ++ x
      unfold stripRev
      dsimp only
      rw [if_neg hc, if_neg hc]
      simp

theorem artist_facets_append {acc nm : Str}
    (hacc : acc = [] ∨ ∃ a', acc = a' ++ [' ']) (hbad : badParen nm = false) :
    artist_facets (acc ++ nm) = acc ++ artist_facets nm := by
  unfold artist_facets
  rw [List.reverse_append]
  have hx : acc.reverse = [] ∨ ∃ x', acc.reverse = ' ' :: x' := by
    rcases hacc with rfl | ⟨a', rfl⟩
    · exact Or.inl rfl
    · exact Or.inr ⟨a'.reverse, by simp⟩
  rw [stripRev_append hx hbad]
  rw [List.reverse_append, List.reverse_reverse]

theorem foldl_concatStep (ais : List ArtistInfo) :
    ∀ acc : Str, (acc = [] ∨ ∃ a', acc = a' ++ [' ']) →
      (∀ ai ∈ ais, badParen (resolveName ai) = false) →
      ais.foldl concatStep acc = acc ++ renderAll ais := by
  induction ais with
  | nil =>
    intro acc _ _
    simp [renderAll]
  | cons ai ais ih =>
    intro acc hacc hbad
    rw [List.foldl_cons]
    have hstep : concatStep acc ai = acc ++ (renderEntry ai ++ [' ']) := by
      unfold concatStep renderEntry
      rw [artist_facets_append hacc (hbad ai (List.mem_cons_self _ _))]
      simp [List.append_assoc]
    rw [hstep]
    rw [ih (acc ++ (renderEntry ai ++ [' '])) (Or.inr ⟨acc ++ renderEntry ai, by simp⟩)
        (fun a haa => hbad a (List.mem_cons_of_mem _ haa))]
    simp [renderAll, List.append_assoc]

theorem renderAll_ne_nil (ai : ArtistInfo) (ais : List ArtistInfo) :
    renderAll (ai :: ais) ≠ [] := by
  simp [renderAll]

theorem dropLast_renderAll :
    ∀ (ais : List ArtistInfo) (ai : ArtistInfo),
      (renderAll (ai :: ais)).dropLast = interSpace ((ai :: ais).map renderEntry) := by
  intro ais
  induction ais with
  | nil =>
    intro ai
    show (renderEntry ai ++ ' ' :: []).dropLast = interSpace [renderEntry ai]
    rw [List.dropLast_append_cons]
    simp [interSpace]
  | cons ai2 ais ih =>
    intro ai
    show (renderEntry ai ++ ' ' :: renderAll (ai2 :: ais)).dropLast
      = interSpace (renderEntry ai :: renderEntry ai2 :: ais.map renderEntry)
    rw [List.dropLast_append_cons]
    rw [List.dropLast_cons_of_ne_nil (renderAll_ne_nil ai2 ais)]
    rw [ih ai2]
    rfl

theorem lastNonSpace_ne_nil {l : Str} (h : lastNonSpace l = true) : l ≠ [] := by
  intro hl
  subst hl
  simp [lastNonSpace] at h

theorem lastNonSpace_append (A : Str) {B : Str} (hB : B ≠ []) :
    lastNonSpace (A ++ B) = lastNonSpace B := by
  unfold lastNonSpace
  rw [List.reverse_append]
  rcases hBr : B.reverse with _ | ⟨c, t⟩
  · rw [List.reverse_eq_nil_iff] at hBr
    exact absurd hBr hB
  · rfl

theorem interSpace_lastNonSpace :
    ∀ (rs : List Str) (r : Str), lastNonSpace r = true →
      lastNonSpace (interSpace (rs ++ [r])) = true := by
  intro rs
  induction rs with
  | nil =>
    intro r h
    exact h
  | cons a rs ih =>
    intro r h
    have hX : lastNonSpace (interSpace (rs ++ [r])) = true := ih r h
    have hXne : interSpace (rs ++ [r]) ≠ [] := lastNonSpace_ne_nil hX
    rcases rs with _ | ⟨b, t⟩
    · show lastNonSpace (a ++ ' ' :: r) = true
      rw [lastNonSpace_append a (by simp)]
      rw [show (' ' :: r : Str) = [' '] ++ r from rfl]
      rw [lastNonSpace_append [' '] (lastNonSpace_ne_nil h)]
      exact h
    · show lastNonSpace (a ++ ' ' :: interSpace ((b :: t) ++ [r])) = true
      rw [lastNonSpace_append a (by simp)]
      rw [show (' ' :: interSpace ((b :: t) ++ [r]) : Str)
            = [' '] ++ interSpace ((b :: t) ++ [r]) from rfl]
      rw [lastNonSpace_append [' '] hXne]
      exact hX

/-- Claim C5 counterexample: the single-entry credit whose name is
"A " (a name ending in a space, no join token) concatenates to "A ",
whose final result carries a trailing space — refuting the claim's
"no trailing space in the final result" for arbitrary non-empty
sequences. -/
theorem concatenate_artists_trailing_space_cex :
    concatenate_artists [{ name := "A ".toList }] = some "A ".toList
    ∧ lastNonSpace "A ".toList = false := by
  constructor
  · decide
  · decide

/-- Claim C5 (amended): for every non-empty artist-credit sequence in
which no entry's resolved name is a bare parenthesized number (which
the in-accumulator disambiguation stripping would delete together with
the preceding separator) and the final entry's rendered name-plus-token
text is non-empty and does not end in a space, the concatenation equals
the space-intercalation of the per-entry renderings — no space between
a name and a comma join token, exactly one space before any non-comma
join token, exactly one space between consecutive entries — and the
final result has no trailing space. -/
theorem concatenate_artists_spacing (entries front : List ArtistInfo)
    (lastE : ArtistInfo) (hE : entries = front ++ [lastE])
    (hbad : ∀ ai ∈ entries, badParen (resolveName ai) = false)
    (hlast : lastNonSpace (renderEntry lastE) = true) :
    concatenate_artists entries = some (interSpace (entries.map renderEntry))
    ∧ lastNonSpace (interSpace (entries.map renderEntry)) = true := by
  subst hE
  have hne : front ++ [lastE] ≠ [] := by simp
  have hfold : (front ++ [lastE]).foldl concatStep [] = renderAll (front ++ [lastE]) :=
    foldl_concatStep _ [] (Or.inl rfl) hbad
  have hrne : renderAll (front ++ [lastE]) ≠ [] := by
    rcases front with _ | ⟨f, fr⟩
    · exact renderAll_ne_nil lastE []
    · exact renderAll_ne_nil f (fr ++ [lastE])
  have hdrop : (renderAll (front ++ [lastE])).dropLast
      = interSpace ((front ++ [lastE]).map renderEntry) := by
    rcases front with _ | ⟨f, fr⟩
    · exact dropLast_renderAll [] lastE
    · exact dropLast_renderAll (fr ++ [lastE]) f
  constructor
  · unfold concatenate_artists
    dsimp only
    rw [hfold, if_neg hrne, hdrop]
  · have hmap : (front ++ [lastE]).map renderEntry
        = front.map renderEntry ++ [renderEntry lastE] := by
      simp
    rw [hmap]
    exact interSpace_lastNonSpace (front.map renderEntry) (renderEntry lastE) hlast

/-- Claim C5 witness: three credits with a comma join, an ampersand
join and a stripped disambiguation suffix concatenate to
"Huey, Dewey & Louie" with no trailing space. -/
theorem concatenate_artists_spacing_witness :
    concatenate_artists
        [{ name := "Huey".toList, join := some ",".toList },
         { name := "Dewey (2)".toList, join := some "&".toList },
         { name := "Louie".toList }]
      = some "Huey, Dewey & Louie".toList
    ∧ lastNonSpace "Huey, Dewey & Louie".toList = true := by
  have h := concatenate_artists_spacing
      [{ name := "Huey".toList, join := some ",".toList },
       { name := "Dewey (2)".toList, join := some "&".toList },
       { name := "Louie".toList }]
      [{ name := "Huey".toList, join := some ",".toList },
       { name := "Dewey (2)".toList, join := some "&".toList }]
      { name := "Louie".toList } rfl (by decide) (by decide)
  exact ⟨h.1, h.2⟩

theorem dcueMain_two {first : Str} (fn : Str) (h : isHelpArg first = false) :
    dcueMain [first, fn] =
      (if (lowerStr first).any (fun c => c == '=') = false then
        .run (lowerStr first) fn false
      else if (lowerStr first).take 2 = "r=".toList
          ∨ (lowerStr first).take 8 = "release=".toList then
        .run (afterFirstEq (lowerStr first)) fn false
      else if (lowerStr first).take 2 = "m=".toList
          ∨ (lowerStr first).take 7 = "master=".toList then
        .run (afterFirstEq (lowerStr first)) fn true
      else .err) := by
  unfold dcueMain
  dsimp only
  rw [if_neg (by simp [h])]

/-- Claim C8: the entry point accepts `<id>`, `r=<id>`/`release=<id>`
and `m=<id>`/`master=<id>` with a case-insensitive prefix, running
master-mode generation exactly for the m=/master= forms; `--help`/`-h`
prints usage and exits 0; a wrong argument count, or an '='-containing
identifier with an unrecognized prefix, prints the syntax error and
exits 1. -/
theorem main_cli_spec :
    (∀ rest, dcueMain ("--help".toList :: rest) = .help) ∧
    (∀ rest, dcueMain ("-h".toList :: rest) = .help) ∧
    exitCode .help = some 0 ∧
    exitCode .err = some 1 ∧
    dcueMain [] = .err ∧
    (∀ first rest, isHelpArg first = false → rest.length ≠ 1 →
        dcueMain (first :: rest) = .err) ∧
    (∀ first fn, isHelpArg first = false →
        (lowerStr first).any (fun c => c == '=') = false →
        dcueMain [first, fn] = .run (lowerStr first) fn false) ∧
    (∀ first fn i, isHelpArg first = false →
        (lowerStr first = "r=".toList ++ i ∨ lowerStr first = "release=".toList ++ i) →
        dcueMain [first, fn] = .run i fn false) ∧
    (∀ first fn i, isHelpArg first = false →
        (lowerStr first = "m=".toList ++ i ∨ lowerStr first = "master=".toList ++ i) →
        dcueMain [first, fn] = .run i fn true) ∧
    (∀ args i fn, dcueMain args = .run i fn true →
        ∃ first, args = [first, fn] ∧
          ((lowerStr first).take 2 = "m=".toList
            ∨ (lowerStr first).take 7 = "master=".toList)) ∧
    (∀ first fn, isHelpArg first = false →
        (lowerStr first).any (fun c => c == '=') = true →
        ¬ ((lowerStr first).take 2 = "r=".toList
            ∨ (lowerStr first).take 8 = "release=".toList) →
        ¬ ((lowerStr first).take 2 = "m=".toList
            ∨ (lowerStr first).take 7 = "master=".toList) →
        dcueMain [first, fn] = .err) := by
  refine ⟨fun rest => rfl, fun rest => rfl, rfl, rfl, rfl, ?_, ?_, ?_, ?_, ?_, ?_⟩
  · intro first rest h1 h2
    rcases rest with _ | ⟨fn, rest2⟩
    · simp [dcueMain, h1]
    · rcases rest2 with _ | ⟨x, r2⟩
      · exact absurd rfl h2
      · simp [dcueMain, h1]
  · intro first fn h1 h2
    rw [dcueMain_two fn h1, h2]
    rfl
  · intro first fn i h1 hOr
    rcases hOr with hEq | hEq
    · rw [dcueMain_two fn h1, hEq]
      rfl
    · rw [dcueMain_two fn h1, hEq]
      rfl
  · intro first fn i h1 hOr
    rcases hOr with hEq | hEq
    · rw [dcueMain_two fn h1, hEq]
      rfl
    · rw [dcueMain_two fn h1, hEq]
      rfl
  · intro args i fn h
    rcases args with _ | ⟨first, rest⟩
    · exact CliResult.noConfusion h
    · by_cases hh : isHelpArg first = true
      · rw [show dcueMain (first :: rest) = .help from by
            unfold dcueMain; dsimp only; rw [if_pos hh]] at h
        exact CliResult.noConfusion h
      · have hh' : isHelpArg first = false := by
          cases hB : isHelpArg first
          · rfl
          · exact absurd hB hh
        rcases rest with _ | ⟨fn', rest2⟩
        · rw [show dcueMain [first] = .err from by simp [dcueMain, hh']] at h
          exact CliResult.noConfusion h
        · rcases rest2 with _ | ⟨x, r3⟩
          · rw [dcueMain_two fn' hh'] at h
            by_cases hA : (lowerStr first).any (fun c => c == '=') = false
            · rw [if_pos hA] at h
              injection h with h1 h2 h3
              exact Bool.noConfusion h3
            · rw [if_neg hA] at h
              by_cases hR : (lowerStr first).take 2 = "r=".toList
                  ∨ (lowerStr first).take 8 = "release=".toList
              · rw [if_pos hR] at h
                injection h with h1 h2 h3
                exact Bool.noConfusion h3
              · rw [if_neg hR] at h
                by_cases hM : (lowerStr first).take 2 = "m=".toList
                    ∨ (lowerStr first).take 7 = "master=".toList
                · rw [if_pos hM] at h
                  injection h with h1 h2 h3
                  exact ⟨first, by rw [h2], hM⟩
                · rw [if_neg hM] at h
                  exact CliResult.noConfusion h
          · rw [show dcueMain (first :: fn' :: x :: r3) = .err from by
                simp [dcueMain, hh']] at h
            exact CliResult.noConfusion h
  · intro first fn h1 h2 h3 h4
    rw [dcueMain_two fn h1, h2]
    rw [if_neg (by decide), if_neg h3, if_neg h4]

/-- Claim C8 witness: "M=7" runs master-mode generation with id "7". -/
theorem main_cli_spec_witness :
    dcueMain ["M=7".toList, "a.flac".toList]
      = .run "7".toList "a.flac".toList true :=
  main_cli_spec.2.2.2.2.2.2.2.2.1 "M=7".toList "a.flac".toList "7".toList
    (by decide) (Or.inl (by decide))

end DCue
